import Mathlib

/-!
Verification of the texture-builder pixel engine (`tex_builder.h`).

The C code is shallowly embedded: `color_t` becomes a record of exact
rationals (the C `float` channels), `texture_t` a record with a width, a
height and a flat row-major list of colors, and each operation
(`texture`, `_noise`, `_rect`, `_circle`, `_mirror`, `_flip`) a pure Lean
function translated statement by statement from the source.  C unsigned
arithmetic is modelled with explicit wraparound (`% 2^32`) wherever the
source can overflow (the rectangle bounds check, the circle span start);
`size_t` indices are plain naturals.
-/

/-- Model of `fmaxf` from math.h on exact rationals. -/
def fmaxf (x y : ℚ) : ℚ := if x ≤ y then y else x

/-- Model of `fminf` from math.h on exact rationals. -/
def fminf (x y : ℚ) : ℚ := if x ≤ y then x else y

/-- The C `color_t`: four float channels r,g,b,a, modelled as exact rationals. -/
structure color_t where
  r : ℚ
  g : ℚ
  b : ℚ
  a : ℚ
deriving DecidableEq

/-- The C `texture_t`: width, height, and the malloc-allocated pixel
store `rgb`, modelled as a flat row-major list (index = y*width + x). -/
structure texture_t where
  width : Nat
  height : Nat
  rgb : List color_t
deriving DecidableEq

/-- A fixed but arbitrary color standing for uninitialized malloc-allocated memory. -/
def cDefault : color_t := ⟨0, 0, 0, 0⟩

/-- The modulus 2^32 of C `unsigned int` arithmetic. -/
def U32 : Nat := 4294967296

/-- The glibc value of RAND_MAX. -/
def RAND_MAX : ℚ := 2147483647

/-- The initializer `texture(w, h, rgba)`: allocate a `w*h` pixel store (uninitialized,
modelled by `cDefault` entries) and fill every cell with `rgba` by the
loop `for (i = 0; i < w*h; i++) tex.rgb[i] = rgba;`. -/
def texture (w h : Nat) (rgba : color_t) : texture_t :=
  { width := w
    height := h
    rgb := (List.range (w * h)).foldl (fun r i => r.set i rgba)
      (List.replicate (w * h) cDefault) }

/-- The update `_noise` performs on the pixel at index `i`: add
`intensity * (rand()/RAND_MAX - 0.5)` to r, g, b (three sequential
`rand()` draws, hence draw indices `3*i`, `3*i+1`, `3*i+2`), then clamp
each of r, g, b with `fminf(fmaxf(·, 0), 1)`.  Alpha is not touched. -/
def noiseXform (seq : Nat → Nat) (intensity : ℚ) (i : Nat) (p : color_t) : color_t :=
  { r := fminf (fmaxf (p.r + intensity * ((seq (3 * i) : ℚ) / RAND_MAX - 1/2)) 0) 1
    g := fminf (fmaxf (p.g + intensity * ((seq (3 * i + 1) : ℚ) / RAND_MAX - 1/2)) 0) 1
    b := fminf (fmaxf (p.b + intensity * ((seq (3 * i + 2) : ℚ) / RAND_MAX - 1/2)) 0) 1
    a := p.a }

/-- One iteration of the `_noise` loop body, acting on pixel `i`. -/
def noiseStep (seq : Nat → Nat) (intensity : ℚ) (rgb : List color_t) (i : Nat) : List color_t :=
  match rgb[i]? with
  | none => rgb
  | some p => rgb.set i (noiseXform seq intensity i p)

/-- The noise operation `_noise(tex, intensity)`.  The C function calls `srand(1)` first, so
every invocation consumes the same pseudo-random sequence; the generator
is the injectable parameter `rand : seed → draw index → draw`, and the
hardcoded seed 1 is applied inside, mirroring `srand(1)`. -/
def _noise (rand : Nat → Nat → Nat) (tex : texture_t) (intensity : ℚ) : texture_t :=
  let seq := rand 1
  { tex with
    rgb := (List.range (tex.width * tex.height)).foldl (noiseStep seq intensity) tex.rgb }

/-- The rectangle fill `_rect(tex, x, y, width, height, color)`.  The
bounds check
`x + width > tex->width || y + height > tex->height` is computed in
C `unsigned int` arithmetic, hence the `% U32` on the sums; the loop
bounds `i < y + height` and `j < x + width` wrap the same way. -/
def _rect (tex : texture_t) (x y width height : Nat) (color : color_t) : texture_t :=
  if tex.width < (x + width) % U32 ∨ tex.height < (y + height) % U32 then tex
  else
    { tex with
      rgb :=
        (List.range' y ((y + height) % U32 - y)).foldl
          (fun rgb i =>
            (List.range' x ((x + width) % U32 - x)).foldl
              (fun rgb j => rgb.set (i * tex.width + j) color) rgb)
          tex.rgb }

/-- The inclusive C loop `for (int i = lo; i <= hi; i++)` iterates over
this list (when it runs at all). -/
def intRange (lo hi : Int) : List Int :=
  (List.range (hi + 1 - lo).toNat).map (fun k : Nat => lo + (k : Int))

/-- Body of a `_circle` column loop at column `i`: write row `y + off`,
then row `y - off`, each after its per-pixel bounds check (the two
sequential `if`s of the source, expanded into the four cases).  In the
source the row values are `unsigned int`, so `y - cy >= 0` is vacuous
but a negative mathematical value wraps above any sane height and fails
`< height`; this is modelled by the explicit `0 ≤ ...` conjuncts. -/
def circleColStep (w h y : Nat) (off : Int) (c : color_t) (rgb : List color_t) (i : Int) :
    List color_t :=
  if 0 ≤ i ∧ i < (w : Int) ∧ 0 ≤ (y : Int) - off ∧ (y : Int) - off < (h : Int) then
    (if 0 ≤ i ∧ i < (w : Int) ∧ 0 ≤ (y : Int) + off ∧ (y : Int) + off < (h : Int) then
      rgb.set (((y : Int) + off).toNat * w + i.toNat) c
    else rgb).set (((y : Int) - off).toNat * w + i.toNat) c
  else
    if 0 ≤ i ∧ i < (w : Int) ∧ 0 ≤ (y : Int) + off ∧ (y : Int) + off < (h : Int) then
      rgb.set (((y : Int) + off).toNat * w + i.toNat) c
    else rgb

/-- One `_circle` span pair: `for (int i = x - half; i <= x + half; i++)`
writing rows `y ± off`.  The loop counter is a signed `int` compared
against the `unsigned` value `x + half`, so when the start `x - half` is
negative it converts to a huge unsigned value and the loop body never
runs: the whole span is skipped, which the leading guard models. -/
def circleSpan (w h x y : Nat) (half off : Int) (c : color_t) (rgb : List color_t) :
    List color_t :=
  if (x : Int) - half < 0 then rgb
  else (intRange ((x : Int) - half) ((x : Int) + half)).foldl (circleColStep w h y off c) rgb

/-- The midpoint-circle `while (cx >= cy)` loop of `_circle`.  Each
iteration draws the two span pairs (halfwidth `cx` at rows `y ± cy`,
then halfwidth `cy` at rows `y ± cx`) and then updates the decision
variables; the two sequential `if`s of the source (`err <= 0` step of
cy, then `err > 0` step of cx on the updated err) are expanded into the
three possible paths, each continuing on the span-updated store.
`fuel` only bounds the recursion; `_circle` passes `radius + 1`, which
exceeds the largest possible iteration count `(cx+1-cy).toNat = radius`,
so the `0` case is never the reason the loop stops (see
`circleLoop_fuel_irrelevant`). -/
def circleLoop (w h x y radius : Nat) (c : color_t) :
    Nat → Int → Int → Int → Int → Int → List color_t → List color_t
  | 0, _, _, _, _, _, rgb => rgb
  | fuel + 1, cx, cy, dx, dy, err, rgb =>
    if cy ≤ cx then
      if err ≤ 0 then
        if 0 < err + dy then
          circleLoop w h x y radius c fuel (cx - 1) (cy + 1) (dx + 2) (dy + 2)
            (err + dy + (dx + 2) - 2 * (radius : Int))
            (circleSpan w h x y cy cx c (circleSpan w h x y cx cy c rgb))
        else
          circleLoop w h x y radius c fuel cx (cy + 1) dx (dy + 2) (err + dy)
            (circleSpan w h x y cy cx c (circleSpan w h x y cx cy c rgb))
      else
        circleLoop w h x y radius c fuel (cx - 1) cy (dx + 2) dy
          (err + (dx + 2) - 2 * (radius : Int))
          (circleSpan w h x y cy cx c (circleSpan w h x y cx cy c rgb))
    else rgb

/-- The filled-circle operation `_circle(tex, x, y, radius, color)`:
midpoint
rasterization.  `int cx = radius - 1` is computed in unsigned arithmetic
and converted to `int`, which for any `radius ≤ 2^31` equals the
mathematical `radius - 1` over ℤ (in particular `-1` when `radius = 0`);
`err = dx - (radius << 1)` is `1 - 2*radius`. -/
def _circle (tex : texture_t) (x y radius : Nat) (c : color_t) : texture_t :=
  { tex with
    rgb :=
      circleLoop tex.width tex.height x y radius c (radius + 1)
        ((radius : Int) - 1) 0 1 1 (1 - 2 * (radius : Int)) tex.rgb }

/-- The common shape of `_mirror` and `_flip`: allocate a scratch store
of `n` entries with `scratch[k] = src[f k]` (uninitialized reads give
`cDefault`), then copy it back with `for (i = 0; i < n; i++)
src[i] = scratch[i]` and free it. -/
def scratchApply (f : Nat → Nat) (n : Nat) (src : List color_t) : List color_t :=
  let scratch : List color_t := (List.range n).map (fun k => src.getD (f k) cDefault)
  (List.range n).foldl (fun rgb i => rgb.set i (scratch.getD i cDefault)) src

/-- The horizontal mirror `_mirror(tex)`: scratch store with
`mirrored[y*w + x] = rgb[y*w + (w-1-x)]` (the flat index `k = y*w + x`
decodes as `y = k / w`, `x = k % w`), copied back entry by entry. -/
def _mirror (tex : texture_t) : texture_t :=
  { tex with
    rgb := scratchApply
      (fun k => (k / tex.width) * tex.width + (tex.width - 1 - k % tex.width))
      (tex.width * tex.height) tex.rgb }

/-- The vertical flip `_flip(tex)`: scratch store `flipped[y*w + x] = rgb[(h-1-y)*w + x]`,
copied back entry by entry. -/
def _flip (tex : texture_t) : texture_t :=
  { tex with
    rgb := scratchApply
      (fun k => (tex.height - 1 - k / tex.width) * tex.width + k % tex.width)
      (tex.width * tex.height) tex.rgb }

/-- Sample colors used by concrete witnesses. -/
def cBlack : color_t := ⟨0, 0, 0, 1⟩

def cWhite : color_t := ⟨1, 1, 1, 1⟩

def cRed : color_t := ⟨1, 0, 0, 1⟩

def cGreen : color_t := ⟨0, 1, 0, 1⟩

/-! ### Generic facts about the loop folds -/

theorem foldl_length_eq {α : Type} (step : List color_t → α → List color_t)
    (hstep : ∀ r a, (step r a).length = r.length) :
    ∀ (l : List α) (r : List color_t), (l.foldl step r).length = r.length := by
  intro l
  induction l with
  | nil => intro r; rfl
  | cons a l ih => intro r; rw [List.foldl_cons, ih, hstep]

theorem foldl_id {α β : Type} : ∀ (l : List α) (r : β), l.foldl (fun acc _ => acc) r = r := by
  intro l
  induction l with
  | nil => intro r; rfl
  | cons a l ih => intro r; rw [List.foldl_cons]; exact ih r

theorem getElem?_foldl_set_range (g : Nat → color_t) :
    ∀ (n : Nat) (rgb : List color_t) (k : Nat),
      ((List.range n).foldl (fun r i => r.set i (g i)) rgb)[k]? =
        if k < n ∧ k < rgb.length then some (g k) else rgb[k]? := by
  intro n
  induction n with
  | zero => intro rgb k; simp
  | succ n ih =>
    intro rgb k
    rw [List.range_succ, List.foldl_append]
    have hlen : ((List.range n).foldl (fun r i => r.set i (g i)) rgb).length = rgb.length :=
      foldl_length_eq _ (fun r a => List.length_set r a (g a)) _ _
    simp only [List.foldl_cons, List.foldl_nil]
    rw [List.getElem?_set, hlen, ih]
    by_cases hk : n = k
    · subst hk
      by_cases hlt : n < rgb.length
      · simp [hlt, Nat.lt_succ_self]
      · have hnone : rgb[n]? = none := List.getElem?_eq_none (Nat.le_of_not_lt hlt)
        simp [hlt, hnone]
    · have : k < n + 1 ↔ k < n := by omega
      simp [hk, this]

theorem cell_lt {w h q r : Nat} (hq : q < h) (hr : r < w) : q * w + r < w * h := by
  calc q * w + r < q * w + w := by omega
    _ = (q + 1) * w := by ring
    _ ≤ h * w := Nat.mul_le_mul_right w hq
    _ = w * h := Nat.mul_comm h w

theorem index_decode {w i j i2 j2 : Nat} (hj : j < w) (hj2 : j2 < w)
    (h : i * w + j = i2 * w + j2) : i = i2 ∧ j = j2 := by
  have hw : 0 < w := Nat.zero_lt_of_lt hj
  have h1 : (i * w + j) / w = i := by
    rw [mul_comm, Nat.mul_add_div hw, Nat.div_eq_of_lt hj, add_zero]
  have h2 : (i2 * w + j2) / w = i2 := by
    rw [mul_comm, Nat.mul_add_div hw, Nat.div_eq_of_lt hj2, add_zero]
  have h3 : (i * w + j) % w = j := by
    rw [mul_comm, Nat.mul_add_mod, Nat.mod_eq_of_lt hj]
  have h4 : (i2 * w + j2) % w = j2 := by
    rw [mul_comm, Nat.mul_add_mod, Nat.mod_eq_of_lt hj2]
  exact ⟨by rw [← h1, ← h2, h], by rw [← h3, ← h4, h]⟩

/-! ### C2: the initializer fills the whole buffer -/

/-- C2: for `w > 0`, `h > 0` and any fill color, `texture(w, h, c)`
returns a buffer with width `w`, height `h`, and a pixel store of
exactly `w*h` entries, each equal to `c`. -/
theorem texture_creates_uniform_buffer (w h : Nat) (rgba : color_t)
    (hw : 0 < w) (hh : 0 < h) :
    (texture w h rgba).width = w ∧ (texture w h rgba).height = h ∧
    (texture w h rgba).rgb.length = w * h ∧
    ∀ i, i < w * h → (texture w h rgba).rgb[i]? = some rgba := by
  refine ⟨rfl, rfl, ?_, ?_⟩
  · show ((List.range (w * h)).foldl (fun r i => r.set i rgba)
        (List.replicate (w * h) cDefault)).length = w * h
    rw [foldl_length_eq _ (fun r a => List.length_set r a rgba), List.length_replicate]
  · intro i hi
    show ((List.range (w * h)).foldl (fun r i => r.set i rgba)
        (List.replicate (w * h) cDefault))[i]? = some rgba
    rw [getElem?_foldl_set_range (fun _ => rgba)]
    simp [hi, List.length_replicate]

/-- Witness for C2 at `w = h = 2`, red fill. -/
theorem texture_creates_uniform_buffer_applied :
    (texture 2 2 cRed).rgb[3]? = some cRed :=
  (texture_creates_uniform_buffer 2 2 cRed (by decide) (by decide)).2.2.2 3 (by decide)

/-! ### C10: radius-0 circles draw nothing -/

/-- C10: `_circle` with radius 0 initializes `cx = radius - 1 = -1`
(unsigned wraparound converted to `int`), so the guard `cx >= cy` fails
at once and the buffer is returned unchanged. -/
theorem circle_zero_radius_draws_nothing (tex : texture_t) (x y : Nat) (c : color_t) :
    _circle tex x y 0 c = tex := by
  unfold _circle circleLoop
  rw [if_neg (by decide)]

/-! ### Noise: pointwise characterization of the loop -/

theorem noiseStep_length (seq : Nat → Nat) (intensity : ℚ) (rgb : List color_t) (i : Nat) :
    (noiseStep seq intensity rgb i).length = rgb.length := by
  unfold noiseStep
  cases h : rgb[i]? with
  | none => rfl
  | some p => exact List.length_set rgb i _

theorem getElem?_noise_fold (seq : Nat → Nat) (intensity : ℚ) :
    ∀ (n : Nat) (rgb : List color_t) (k : Nat),
      ((List.range n).foldl (noiseStep seq intensity) rgb)[k]? =
        if k < n then Option.map (noiseXform seq intensity k) rgb[k]? else rgb[k]? := by
  intro n
  induction n with
  | zero => intro rgb k; simp
  | succ n ih =>
    intro rgb k
    rw [List.range_succ, List.foldl_append]
    simp only [List.foldl_cons, List.foldl_nil]
    have hmidn : ((List.range n).foldl (noiseStep seq intensity) rgb)[n]? = rgb[n]? := by
      rw [ih]; simp
    have hmidlen : ((List.range n).foldl (noiseStep seq intensity) rgb).length = rgb.length :=
      foldl_length_eq _ (noiseStep_length seq intensity) _ _
    cases hcase : rgb[n]? with
    | none =>
      have hstep : noiseStep seq intensity ((List.range n).foldl (noiseStep seq intensity) rgb) n
          = (List.range n).foldl (noiseStep seq intensity) rgb := by
        rw [noiseStep, hmidn, hcase]
      rw [hstep]
      by_cases hk : k = n
      · subst hk
        rw [hmidn, hcase]
        simp [Nat.lt_succ_self, hcase]
      · rw [ih]
        by_cases hlt : k < n
        · rw [if_pos hlt, if_pos (by omega)]
        · rw [if_neg hlt, if_neg (by omega)]
    | some p =>
      have hstep : noiseStep seq intensity ((List.range n).foldl (noiseStep seq intensity) rgb) n
          = ((List.range n).foldl (noiseStep seq intensity) rgb).set n
              (noiseXform seq intensity n p) := by
        rw [noiseStep, hmidn, hcase]
      rw [hstep, List.getElem?_set, hmidlen]
      have hnlen : n < rgb.length := by
        by_contra h
        rw [List.getElem?_eq_none (Nat.le_of_not_lt h)] at hcase
        exact Option.noConfusion hcase
      by_cases hk : n = k
      · subst hk
        rw [if_pos rfl, if_pos hnlen, hcase]
        simp [Nat.lt_succ_self]
      · rw [if_neg hk, ih]
        by_cases hlt : k < n
        · rw [if_pos hlt, if_pos (by omega)]
        · rw [if_neg hlt, if_neg (by omega)]

/-! ### C1: reseeded noise is a deterministic function of the buffer -/

/-- C1: `_noise` reseeds with `srand(1)` on every invocation (the model
applies the fixed seed 1 to the injectable generator inside the body),
so on two buffers with identical dimensions and identical pixel
contents it produces bit-identical results for any intensity. -/
theorem noise_is_deterministic (rand : Nat → Nat → Nat) (intensity : ℚ) (t1 t2 : texture_t)
    (hw : t1.width = t2.width) (hh : t1.height = t2.height) (hp : t1.rgb = t2.rgb) :
    _noise rand t1 intensity = _noise rand t2 intensity := by
  have ht : t1 = t2 := by
    cases t1
    cases t2
    congr 1
  rw [ht]

/-- Witness for C1 on a concrete 2×1 red buffer. -/
theorem noise_is_deterministic_applied :
    _noise (fun _ _ => 0) (texture 2 1 cRed) 1 = _noise (fun _ _ => 0) (texture 2 1 cRed) 1 :=
  noise_is_deterministic (fun _ _ => 0) 1 (texture 2 1 cRed) (texture 2 1 cRed) rfl rfl rfl

/-! ### C8: noise clamps r,g,b to [0,1] and leaves alpha alone -/

theorem fminf_fmaxf_clamps (v : ℚ) : 0 ≤ fminf (fmaxf v 0) 1 ∧ fminf (fmaxf v 0) 1 ≤ 1 := by
  unfold fminf fmaxf
  constructor <;> (split <;> split) <;> first | rfl | linarith | norm_num

/-- C8: after `_noise`, every pixel that was in the buffer still is, its
r, g, b channels lie in [0,1] whatever the intensity (the final
`fminf(fmaxf(·,0),1)` clamp), and its alpha channel is unchanged. -/
theorem noise_clamps_rgb_and_preserves_alpha (rand : Nat → Nat → Nat) (tex : texture_t)
    (intensity : ℚ) (hlen : tex.rgb.length = tex.width * tex.height) :
    ∀ (k : Nat) (p₀ : color_t), tex.rgb[k]? = some p₀ →
      ∃ p : color_t, (_noise rand tex intensity).rgb[k]? = some p ∧
        0 ≤ p.r ∧ p.r ≤ 1 ∧ 0 ≤ p.g ∧ p.g ≤ 1 ∧ 0 ≤ p.b ∧ p.b ≤ 1 ∧ p.a = p₀.a := by
  intro k p₀ hk
  have hklen : k < tex.rgb.length := by
    by_contra h
    rw [List.getElem?_eq_none (Nat.le_of_not_lt h)] at hk
    exact Option.noConfusion hk
  have hbody : (_noise rand tex intensity).rgb
      = (List.range (tex.width * tex.height)).foldl (noiseStep (rand 1) intensity) tex.rgb := rfl
  rw [hbody, getElem?_noise_fold, if_pos (hlen ▸ hklen), hk]
  refine ⟨noiseXform (rand 1) intensity k p₀, rfl, ?_, ?_, ?_, ?_, ?_, ?_, rfl⟩
  · exact (fminf_fmaxf_clamps _).1
  · exact (fminf_fmaxf_clamps _).2
  · exact (fminf_fmaxf_clamps _).1
  · exact (fminf_fmaxf_clamps _).2
  · exact (fminf_fmaxf_clamps _).1
  · exact (fminf_fmaxf_clamps _).2

/-- Witness for C8: intensity 5, zero generator, 1×1 red buffer. -/
theorem noise_clamps_rgb_and_preserves_alpha_applied :
    ∃ p : color_t, (_noise (fun _ _ => 0) (texture 1 1 cRed) 5).rgb[0]? = some p ∧
      0 ≤ p.r ∧ p.r ≤ 1 ∧ 0 ≤ p.g ∧ p.g ≤ 1 ∧ 0 ≤ p.b ∧ p.b ≤ 1 ∧ p.a = cRed.a :=
  noise_clamps_rgb_and_preserves_alpha (fun _ _ => 0) (texture 1 1 cRed) 5 (by decide)
    0 cRed (by decide)

/-! ### C3: out-of-bounds rectangles are a complete no-op -/

/-- C3: if the rectangle extent exceeds the buffer (`x + rw > width` or
`y + rh > height` over ℕ), `_rect` returns the buffer byte-identical:
either the unsigned bounds check catches it and returns early, or the
sum wrapped past 2^32, the check passes, and the wrapped loop bound
makes the fill loops run zero iterations.  The hypotheses `< U32` just
say the arguments are C `unsigned int` values. -/
theorem rect_out_of_bounds_noop (tex : texture_t) (x y rw rh : Nat) (c : color_t)
    (hx : x < U32) (hy : y < U32) (hrw : rw < U32) (hrh : rh < U32)
    (hoob : tex.width < x + rw ∨ tex.height < y + rh) :
    _rect tex x y rw rh c = tex := by
  unfold _rect
  split
  · rfl
  · rename_i hcond
    push_neg at hcond
    obtain ⟨h1, h2⟩ := hcond
    rcases hoob with hoobw | hoobh
    · have hwrap : U32 ≤ x + rw := by
        by_contra h
        push_neg at h
        rw [Nat.mod_eq_of_lt h] at h1
        omega
      have hlen0 : (x + rw) % U32 - x = 0 := by
        rw [Nat.mod_eq_sub_mod hwrap, Nat.mod_eq_of_lt (by omega)]
        omega
      simp only [hlen0, List.range'_zero, List.foldl_nil]
      rw [foldl_id]
    · have hwrap : U32 ≤ y + rh := by
        by_contra h
        push_neg at h
        rw [Nat.mod_eq_of_lt h] at h2
        omega
      have hlen0 : (y + rh) % U32 - y = 0 := by
        rw [Nat.mod_eq_sub_mod hwrap, Nat.mod_eq_of_lt (by omega)]
        omega
      simp only [hlen0, List.range'_zero, List.foldl_nil]

/-- Witness for C3: a 2×1 rectangle at x = 3 on a 4×4 buffer. -/
theorem rect_out_of_bounds_noop_applied :
    _rect (texture 4 4 cRed) 3 0 2 1 cGreen = texture 4 4 cRed :=
  rect_out_of_bounds_noop (texture 4 4 cRed) 3 0 2 1 cGreen (by decide) (by decide)
    (by decide) (by decide) (Or.inl (by decide))

/-! ### C7: mirror and flip are involutions -/

theorem texture_ext {t1 t2 : texture_t} (hw : t1.width = t2.width)
    (hh : t1.height = t2.height) (hr : t1.rgb = t2.rgb) : t1 = t2 := by
  cases t1
  cases t2
  congr 1

theorem scratchApply_length (f : Nat → Nat) (n : Nat) (src : List color_t) :
    (scratchApply f n src).length = src.length :=
  foldl_length_eq _ (fun r a => List.length_set r a _) _ _

theorem scratchApply_getElem? (f : Nat → Nat) (n : Nat) (src : List color_t) (k : Nat) :
    (scratchApply f n src)[k]? =
      if k < n ∧ k < src.length then some (src.getD (f k) cDefault) else src[k]? := by
  have hbody : scratchApply f n src =
      (List.range n).foldl
        (fun rgb i =>
          rgb.set i (((List.range n).map (fun j => src.getD (f j) cDefault)).getD i cDefault))
        src := rfl
  rw [hbody,
    getElem?_foldl_set_range
      (fun i => ((List.range n).map (fun j => src.getD (f j) cDefault)).getD i cDefault)]
  by_cases hk : k < n ∧ k < src.length
  · rw [if_pos hk, if_pos hk]
    congr 1
    rw [List.getD_eq_getElem?_getD, List.getElem?_map, List.getElem?_range hk.1]
    rfl
  · rw [if_neg hk, if_neg hk]

theorem scratchApply_involutive (f : Nat → Nat) (n : Nat) (src : List color_t)
    (hlen : src.length = n) (hf_lt : ∀ k, k < n → f k < n)
    (hff : ∀ k, k < n → f (f k) = k) :
    scratchApply f n (scratchApply f n src) = src := by
  apply List.ext_getElem?
  intro k
  rw [scratchApply_getElem? f n (scratchApply f n src) k, scratchApply_length]
  by_cases hk : k < n ∧ k < src.length
  · rw [if_pos hk]
    have hfk : f k < n := hf_lt k hk.1
    have hfklen : f k < src.length := by omega
    rw [List.getD_eq_getElem?_getD, scratchApply_getElem?, if_pos ⟨hfk, hfklen⟩,
      Option.getD_some, hff k hk.1, List.getD_eq_getElem?_getD]
    cases hsk : src[k]? with
    | none =>
      exfalso
      rw [List.getElem?_eq_getElem hk.2] at hsk
      exact Option.noConfusion hsk
    | some v => rfl
  · rw [if_neg hk, scratchApply_getElem?, if_neg hk]

theorem mirrorIdx_lt {w h k : Nat} (hk : k < w * h) :
    (k / w) * w + (w - 1 - k % w) < w * h := by
  have hw : 0 < w := by
    rcases Nat.eq_zero_or_pos w with h0 | h0
    · subst h0; simp at hk
    · exact h0
  have hq : k / w < h := Nat.div_lt_of_lt_mul hk
  have hr : k % w < w := Nat.mod_lt _ hw
  exact cell_lt hq (by omega)

theorem mirrorIdx_invol {w h k : Nat} (hk : k < w * h) :
    (((k / w) * w + (w - 1 - k % w)) / w) * w
      + (w - 1 - ((k / w) * w + (w - 1 - k % w)) % w) = k := by
  have hw : 0 < w := by
    rcases Nat.eq_zero_or_pos w with h0 | h0
    · subst h0; simp at hk
    · exact h0
  have hr : k % w < w := Nat.mod_lt _ hw
  have hdiv : ((k / w) * w + (w - 1 - k % w)) / w = k / w := by
    rw [Nat.mul_comm (k / w) w, Nat.mul_add_div hw,
      Nat.div_eq_of_lt (show w - 1 - k % w < w by omega), add_zero]
  have hmod : ((k / w) * w + (w - 1 - k % w)) % w = w - 1 - k % w := by
    rw [Nat.mul_comm (k / w) w, Nat.mul_add_mod,
      Nat.mod_eq_of_lt (show w - 1 - k % w < w by omega)]
  rw [hdiv, hmod]
  have h6 : w - 1 - (w - 1 - k % w) = k % w := by omega
  rw [h6, Nat.mul_comm (k / w) w]
  exact Nat.div_add_mod k w

theorem flipIdx_lt {w h k : Nat} (hk : k < w * h) :
    (h - 1 - k / w) * w + k % w < w * h := by
  have hw : 0 < w := by
    rcases Nat.eq_zero_or_pos w with h0 | h0
    · subst h0; simp at hk
    · exact h0
  have hq : k / w < h := Nat.div_lt_of_lt_mul hk
  have hr : k % w < w := Nat.mod_lt _ hw
  have hh : 0 < h := Nat.zero_lt_of_lt hq
  exact cell_lt (lt_of_le_of_lt (Nat.sub_le (h - 1) (k / w)) (Nat.sub_lt hh Nat.one_pos)) hr

theorem flipIdx_invol {w h k : Nat} (hk : k < w * h) :
    (h - 1 - ((h - 1 - k / w) * w + k % w) / w) * w
      + ((h - 1 - k / w) * w + k % w) % w = k := by
  have hw : 0 < w := by
    rcases Nat.eq_zero_or_pos w with h0 | h0
    · subst h0; simp at hk
    · exact h0
  have hq : k / w < h := Nat.div_lt_of_lt_mul hk
  have hr : k % w < w := Nat.mod_lt _ hw
  have h6 : h - 1 - (h - 1 - k / w) = k / w := by
    revert hq
    generalize k / w = q
    intro hq
    omega
  have hdiv : ((h - 1 - k / w) * w + k % w) / w = h - 1 - k / w := by
    rw [Nat.mul_comm (h - 1 - k / w) w, Nat.mul_add_div hw, Nat.div_eq_of_lt hr, add_zero]
  have hmod : ((h - 1 - k / w) * w + k % w) % w = k % w := by
    rw [Nat.mul_comm (h - 1 - k / w) w, Nat.mul_add_mod, Nat.mod_eq_of_lt hr]
  rw [hdiv, hmod, h6, Nat.mul_comm (k / w) w]
  exact Nat.div_add_mod k w

/-- C7: `_mirror` composed with itself restores every pixel, and so does
`_flip`: both operations are involutions on well-formed buffers. -/
theorem mirror_flip_involutive (tex : texture_t)
    (hlen : tex.rgb.length = tex.width * tex.height) :
    _mirror (_mirror tex) = tex ∧ _flip (_flip tex) = tex := by
  constructor
  · refine texture_ext rfl rfl ?_
    exact scratchApply_involutive _ _ _ hlen (fun k hk => mirrorIdx_lt hk)
      (fun k hk => mirrorIdx_invol hk)
  · refine texture_ext rfl rfl ?_
    exact scratchApply_involutive _ _ _ hlen (fun k hk => flipIdx_lt hk)
      (fun k hk => flipIdx_invol hk)

/-- Witness for C7 on a concrete 2×2 buffer with four distinct pixels. -/
theorem mirror_flip_involutive_applied :
    _mirror (_mirror ⟨2, 2, [cRed, cGreen, cBlack, cWhite]⟩)
        = (⟨2, 2, [cRed, cGreen, cBlack, cWhite]⟩ : texture_t) ∧
      _flip (_flip ⟨2, 2, [cRed, cGreen, cBlack, cWhite]⟩)
        = (⟨2, 2, [cRed, cGreen, cBlack, cWhite]⟩ : texture_t) :=
  mirror_flip_involutive ⟨2, 2, [cRed, cGreen, cBlack, cWhite]⟩ (by decide)

/-! ### C4: in-bounds rectangles overwrite exactly their pixels -/

theorem rect_row_keeps (w i : Nat) (c : color_t) :
    ∀ (wn x : Nat) (rgb : List color_t) (k : Nat),
      (∀ j, x ≤ j → j < x + wn → k ≠ i * w + j) →
      ((List.range' x wn).foldl (fun r j => r.set (i * w + j) c) rgb)[k]? = rgb[k]? := by
  intro wn
  induction wn with
  | zero => intro x rgb k _; simp
  | succ wn ih =>
    intro x rgb k hk
    rw [List.range'_succ, List.foldl_cons,
      ih (x + 1) _ k (fun j h1 h2 => hk j (by omega) (by omega)),
      List.getElem?_set_ne (Ne.symm (hk x (Nat.le_refl x) (by omega)))]

theorem rect_row_writes (w i : Nat) (c : color_t) :
    ∀ (wn x : Nat) (rgb : List color_t) (j : Nat),
      x ≤ j → j < x + wn → i * w + j < rgb.length →
      ((List.range' x wn).foldl (fun r jj => r.set (i * w + jj) c) rgb)[i * w + j]? = some c := by
  intro wn
  induction wn with
  | zero => intro x rgb j h1 h2 _; omega
  | succ wn ih =>
    intro x rgb j h1 h2 hlen
    rw [List.range'_succ, List.foldl_cons]
    by_cases hj : j = x
    · subst hj
      rw [rect_row_keeps w i c wn (j + 1) _ (i * w + j) (fun j' hj1 hj2 => by omega),
        List.getElem?_set, if_pos rfl, if_pos hlen]
    · exact ih (x + 1) _ j (by omega) (by omega) (by rw [List.length_set]; exact hlen)

theorem rect_rows_keeps (w : Nat) (c : color_t) (x wn : Nat) :
    ∀ (hn y : Nat) (rgb : List color_t) (k : Nat),
      (∀ i j, y ≤ i → i < y + hn → x ≤ j → j < x + wn → k ≠ i * w + j) →
      ((List.range' y hn).foldl
          (fun rgb i => (List.range' x wn).foldl (fun r j => r.set (i * w + j) c) rgb)
          rgb)[k]? = rgb[k]? := by
  intro hn
  induction hn with
  | zero => intro y rgb k _; simp
  | succ hn ih =>
    intro y rgb k hk
    rw [List.range'_succ, List.foldl_cons,
      ih (y + 1) _ k (fun i j h1 h2 => hk i j (by omega) (by omega)),
      rect_row_keeps w y c wn x rgb k (fun j h1 h2 => hk y j (Nat.le_refl y) (by omega) h1 h2)]

theorem rect_rows_writes (w : Nat) (c : color_t) (x wn : Nat) (hxw : x + wn ≤ w) :
    ∀ (hn y : Nat) (rgb : List color_t) (i j : Nat),
      y ≤ i → i < y + hn → x ≤ j → j < x + wn → i * w + j < rgb.length →
      ((List.range' y hn).foldl
          (fun rgb i => (List.range' x wn).foldl (fun r j => r.set (i * w + j) c) rgb)
          rgb)[i * w + j]? = some c := by
  intro hn
  induction hn with
  | zero => intro y rgb i j h1 h2 _ _ _; omega
  | succ hn ih =>
    intro y rgb i j h1 h2 h3 h4 hlen
    rw [List.range'_succ, List.foldl_cons]
    by_cases hi : i = y
    · subst hi
      rw [rect_rows_keeps w c x wn hn (i + 1) _ (i * w + j) ?_]
      · exact rect_row_writes w i c wn x rgb j h3 h4 hlen
      · intro i' j' hi1 hi2 hj1 hj2 heq
        obtain ⟨hii, hjj⟩ := index_decode (show j < w by omega) (show j' < w by omega) heq
        omega
    · refine ih (y + 1) _ i j (by omega) (by omega) h3 h4 ?_
      rw [foldl_length_eq _ (fun r a => List.length_set r (y * w + a) c)]
      exact hlen

/-- C4: a rectangle that fits (`x + rw ≤ width`, `y + rh ≤ height`)
overwrites every pixel of `[x, x+rw) × [y, y+rh)` with `c` and leaves
every other in-bounds pixel unchanged.  The `< U32` hypotheses say the
buffer is small enough that the unsigned bounds check cannot wrap. -/
theorem rect_in_bounds_fill (tex : texture_t) (x y rw rh : Nat) (c : color_t)
    (hxw : x + rw ≤ tex.width) (hyh : y + rh ≤ tex.height)
    (hw32 : tex.width < U32) (hh32 : tex.height < U32)
    (hlen : tex.rgb.length = tex.width * tex.height) :
    (∀ i j, y ≤ i → i < y + rh → x ≤ j → j < x + rw →
        (_rect tex x y rw rh c).rgb[i * tex.width + j]? = some c) ∧
    (∀ i j, i < tex.height → j < tex.width →
        ¬(x ≤ j ∧ j < x + rw ∧ y ≤ i ∧ i < y + rh) →
        (_rect tex x y rw rh c).rgb[i * tex.width + j]? = tex.rgb[i * tex.width + j]?) := by
  have hmx : (x + rw) % U32 = x + rw := Nat.mod_eq_of_lt (by omega)
  have hmy : (y + rh) % U32 = y + rh := Nat.mod_eq_of_lt (by omega)
  have hcond : ¬(tex.width < (x + rw) % U32 ∨ tex.height < (y + rh) % U32) := by
    rw [hmx, hmy]
    push_neg
    exact ⟨hxw, hyh⟩
  have hbody : (_rect tex x y rw rh c).rgb =
      (List.range' y ((y + rh) % U32 - y)).foldl
        (fun rgb i =>
          (List.range' x ((x + rw) % U32 - x)).foldl
            (fun r j => r.set (i * tex.width + j) c) rgb)
        tex.rgb := by
    unfold _rect
    rw [if_neg hcond]
  constructor
  · intro i j h1 h2 h3 h4
    rw [hbody]
    simp only [hmx, hmy, Nat.add_sub_cancel_left]
    refine rect_rows_writes tex.width c x rw hxw rh y tex.rgb i j h1 h2 h3 h4 ?_
    rw [hlen]
    exact cell_lt (by omega) (by omega)
  · intro i j hi hj hnot
    rw [hbody]
    simp only [hmx, hmy, Nat.add_sub_cancel_left]
    apply rect_rows_keeps
    intro i' j' hi1 hi2 hj1 hj2 heq
    obtain ⟨hii, hjj⟩ := index_decode hj (show j' < tex.width by omega) heq
    exact hnot ⟨by omega, by omega, by omega, by omega⟩

/-- Witness for C4: the 4×4 example from the spec, red base, 2×2 green block at
rows/cols 1–2; checks one pixel inside and one outside the rectangle. -/
theorem rect_in_bounds_fill_applied :
    (_rect (texture 4 4 cRed) 1 1 2 2 cGreen).rgb[2 * 4 + 1]? = some cGreen ∧
      (_rect (texture 4 4 cRed) 1 1 2 2 cGreen).rgb[0 * 4 + 0]? =
        (texture 4 4 cRed).rgb[0 * 4 + 0]? :=
  ⟨(rect_in_bounds_fill (texture 4 4 cRed) 1 1 2 2 cGreen (by decide) (by decide) (by decide)
      (by decide) (by decide)).1 2 1 (by decide) (by decide) (by decide) (by decide),
    (rect_in_bounds_fill (texture 4 4 cRed) 1 1 2 2 cGreen (by decide) (by decide) (by decide)
      (by decide) (by decide)).2 0 0 (by decide) (by decide) (by decide)⟩

/-! ### C5: circle writes stay in bounds and near the center -/

theorem circleLoop_zero (w h x y radius : Nat) (c : color_t) (cx cy dx dy err : Int)
    (rgb : List color_t) :
    circleLoop w h x y radius c 0 cx cy dx dy err rgb = rgb := rfl

theorem circleLoop_succ (w h x y radius : Nat) (c : color_t) (fuel : Nat)
    (cx cy dx dy err : Int) (rgb : List color_t) :
    circleLoop w h x y radius c (fuel + 1) cx cy dx dy err rgb =
      if cy ≤ cx then
        if err ≤ 0 then
          if 0 < err + dy then
            circleLoop w h x y radius c fuel (cx - 1) (cy + 1) (dx + 2) (dy + 2)
              (err + dy + (dx + 2) - 2 * (radius : Int))
              (circleSpan w h x y cy cx c (circleSpan w h x y cx cy c rgb))
          else
            circleLoop w h x y radius c fuel cx (cy + 1) dx (dy + 2) (err + dy)
              (circleSpan w h x y cy cx c (circleSpan w h x y cx cy c rgb))
        else
          circleLoop w h x y radius c fuel (cx - 1) cy (dx + 2) dy
            (err + (dx + 2) - 2 * (radius : Int))
            (circleSpan w h x y cy cx c (circleSpan w h x y cx cy c rgb))
      else rgb := rfl

/-- With fuel at least the loop measure `(cx+1-cy).toNat`, adding more
fuel changes nothing: the choice of `radius + 1` in `_circle` is not
what stops the loop. -/
theorem circleLoop_fuel_irrelevant (w h x y radius : Nat) (c : color_t) :
    ∀ (fuel : Nat) (cx cy dx dy err : Int) (rgb : List color_t),
      (cx + 1 - cy).toNat ≤ fuel →
      circleLoop w h x y radius c (fuel + 1) cx cy dx dy err rgb =
        circleLoop w h x y radius c fuel cx cy dx dy err rgb := by
  intro fuel
  induction fuel with
  | zero =>
    intro cx cy dx dy err rgb hm
    rw [circleLoop_succ, if_neg (show ¬cy ≤ cx by omega),
      circleLoop_zero w h x y radius c cx cy dx dy err rgb]
  | succ fuel ih =>
    intro cx cy dx dy err rgb hm
    conv_rhs => rw [circleLoop_succ]
    conv_lhs => rw [circleLoop_succ]
    by_cases hg : cy ≤ cx
    · rw [if_pos hg, if_pos hg]
      by_cases h1 : err ≤ 0
      · rw [if_pos h1, if_pos h1]
        by_cases h2 : 0 < err + dy
        · rw [if_pos h2, if_pos h2]
          exact ih _ _ _ _ _ _ (by omega)
        · rw [if_neg h2, if_neg h2]
          exact ih _ _ _ _ _ _ (by omega)
      · rw [if_neg h1, if_neg h1]
        exact ih _ _ _ _ _ _ (by omega)
    · rw [if_neg hg, if_neg hg]

theorem mem_intRange {lo hi m : Int} : m ∈ intRange lo hi ↔ lo ≤ m ∧ m ≤ hi := by
  constructor
  · intro hm
    obtain ⟨a, ha, rfl⟩ := List.mem_map.mp hm
    have ha2 := List.mem_range.mp ha
    omega
  · intro hm
    refine List.mem_map.mpr ⟨(m - lo).toNat, List.mem_range.mpr ?_, ?_⟩
    · omega
    · omega

theorem set_case (rgb : List color_t) (c : color_t) (ka k : Nat) :
    (rgb.set ka c)[k]? = rgb[k]? ∨ ((rgb.set ka c)[k]? = some c ∧ k = ka) := by
  by_cases hk : ka = k
  · subst hk
    by_cases hl : ka < rgb.length
    · exact Or.inr ⟨by rw [List.getElem?_set, if_pos rfl, if_pos hl], rfl⟩
    · refine Or.inl ?_
      rw [List.getElem?_set, if_pos rfl, if_neg hl, List.getElem?_eq_none (by omega)]
  · exact Or.inl (List.getElem?_set_ne hk)

theorem foldl_or_some {α : Type} (step : List color_t → α → List color_t) (c : color_t)
    (Q : α → Nat → Prop)
    (hstep : ∀ r a k, (step r a)[k]? = r[k]? ∨ ((step r a)[k]? = some c ∧ Q a k)) :
    ∀ (l : List α) (r : List color_t) (k : Nat),
      (l.foldl step r)[k]? = r[k]? ∨
        ((l.foldl step r)[k]? = some c ∧ ∃ a ∈ l, Q a k) := by
  intro l
  induction l with
  | nil => intro r k; exact Or.inl rfl
  | cons a l ih =>
    intro r k
    rw [List.foldl_cons]
    rcases ih (step r a) k with h | ⟨h1, a', ha', hq⟩
    · rw [h]
      rcases hstep r a k with h2 | ⟨h2, hq⟩
      · exact Or.inl h2
      · exact Or.inr ⟨h2, a, List.mem_cons_self a l, hq⟩
    · exact Or.inr ⟨h1, a', List.mem_cons_of_mem a ha', hq⟩

theorem circleColStep_changes (w h y : Nat) (off : Int) (c : color_t)
    (rgb : List color_t) (i : Int) (k : Nat) :
    (circleColStep w h y off c rgb i)[k]? = rgb[k]? ∨
      ((circleColStep w h y off c rgb i)[k]? = some c ∧
        ∃ px py : Nat, k = py * w + px ∧ px < w ∧ py < h ∧ (px : Int) = i ∧
          ((py : Int) = (y : Int) + off ∨ (py : Int) = (y : Int) - off)) := by
  unfold circleColStep
  by_cases hB : 0 ≤ i ∧ i < (w : Int) ∧ 0 ≤ (y : Int) - off ∧ (y : Int) - off < (h : Int)
  · rw [if_pos hB]
    by_cases hA : 0 ≤ i ∧ i < (w : Int) ∧ 0 ≤ (y : Int) + off ∧ (y : Int) + off < (h : Int)
    · rw [if_pos hA]
      rcases set_case (rgb.set ((((y : Int) + off).toNat) * w + i.toNat) c) c
          ((((y : Int) - off).toNat) * w + i.toNat) k with h1 | ⟨h1, hk1⟩
      · rw [h1]
        rcases set_case rgb c ((((y : Int) + off).toNat) * w + i.toNat) k with h2 | ⟨h2, hk2⟩
        · exact Or.inl h2
        · exact Or.inr ⟨h2, i.toNat, ((y : Int) + off).toNat, hk2, by omega, by omega, by omega,
            Or.inl (by omega)⟩
      · exact Or.inr ⟨h1, i.toNat, ((y : Int) - off).toNat, hk1, by omega, by omega, by omega,
          Or.inr (by omega)⟩
    · rw [if_neg hA]
      rcases set_case rgb c ((((y : Int) - off).toNat) * w + i.toNat) k with h1 | ⟨h1, hk1⟩
      · exact Or.inl h1
      · exact Or.inr ⟨h1, i.toNat, ((y : Int) - off).toNat, hk1, by omega, by omega, by omega,
          Or.inr (by omega)⟩
  · rw [if_neg hB]
    by_cases hA : 0 ≤ i ∧ i < (w : Int) ∧ 0 ≤ (y : Int) + off ∧ (y : Int) + off < (h : Int)
    · rw [if_pos hA]
      rcases set_case rgb c ((((y : Int) + off).toNat) * w + i.toNat) k with h1 | ⟨h1, hk1⟩
      · exact Or.inl h1
      · exact Or.inr ⟨h1, i.toNat, ((y : Int) + off).toNat, hk1, by omega, by omega, by omega,
          Or.inl (by omega)⟩
    · rw [if_neg hA]
      exact Or.inl rfl

theorem circleSpan_changes (w h x y : Nat) (half off : Int) (c : color_t)
    (rgb : List color_t) (k : Nat) :
    (circleSpan w h x y half off c rgb)[k]? = rgb[k]? ∨
      ((circleSpan w h x y half off c rgb)[k]? = some c ∧
        ∃ px py : Nat, k = py * w + px ∧ px < w ∧ py < h ∧
          (x : Int) - half ≤ (px : Int) ∧ (px : Int) ≤ (x : Int) + half ∧
          ((py : Int) = (y : Int) + off ∨ (py : Int) = (y : Int) - off)) := by
  unfold circleSpan
  by_cases hskip : (x : Int) - half < 0
  · rw [if_pos hskip]
    exact Or.inl rfl
  · rw [if_neg hskip]
    rcases foldl_or_some (circleColStep w h y off c) c
        (fun i k => ∃ px py : Nat, k = py * w + px ∧ px < w ∧ py < h ∧ (px : Int) = i ∧
          ((py : Int) = (y : Int) + off ∨ (py : Int) = (y : Int) - off))
        (fun r a k2 => circleColStep_changes w h y off c r a k2)
        (intRange ((x : Int) - half) ((x : Int) + half)) rgb k with
      hu | ⟨hc, i, hi, px, py, hk, hpx, hpy, hpxi, hpyo⟩
    · exact Or.inl hu
    · have hmem := mem_intRange.mp hi
      exact Or.inr ⟨hc, px, py, hk, hpx, hpy, by omega, by omega, hpyo⟩

theorem circleLoop_changes (w h x y radius : Nat) (c : color_t) :
    ∀ (fuel : Nat) (cx cy dx dy err : Int) (rgb : List color_t) (k : Nat),
      err = cx ^ 2 + cy ^ 2 - (radius : Int) ^ 2 →
      dx = 2 * ((radius : Int) - 1 - cx) + 1 →
      dy = 2 * cy + 1 →
      0 ≤ cy → cx ≤ (radius : Int) - 1 → err ≤ 2 * cy →
      (circleLoop w h x y radius c fuel cx cy dx dy err rgb)[k]? = rgb[k]? ∨
        ((circleLoop w h x y radius c fuel cx cy dx dy err rgb)[k]? = some c ∧
          ∃ px py : Nat, k = py * w + px ∧ px < w ∧ py < h ∧
            ((px : Int) - x) ^ 2 + ((py : Int) - y) ^ 2 ≤ (radius : Int) ^ 2 + 2 * radius - 2) := by
  intro fuel
  induction fuel with
  | zero =>
    intro cx cy dx dy err rgb k _ _ _ _ _ _
    rw [circleLoop_zero]
    exact Or.inl rfl
  | succ fuel ih =>
    intro cx cy dx dy err rgb k herr hdx hdy hcy hcx hb
    by_cases hg : cy ≤ cx
    case neg =>
      rw [circleLoop_succ, if_neg hg]
      exact Or.inl rfl
    case pos =>
      have hcxcy : cx ^ 2 + cy ^ 2 ≤ (radius : Int) ^ 2 + 2 * radius - 2 := by
        have h1 : cx ^ 2 + cy ^ 2 = err + (radius : Int) ^ 2 := by rw [herr]; ring
        have h2 : cy ≤ (radius : Int) - 1 := le_trans hg hcx
        linarith
      have hfinal : ∀ px py : Nat,
          (((x : Int) - cx ≤ (px : Int) ∧ (px : Int) ≤ (x : Int) + cx ∧
              ((py : Int) = (y : Int) + cy ∨ (py : Int) = (y : Int) - cy)) ∨
            ((x : Int) - cy ≤ (px : Int) ∧ (px : Int) ≤ (x : Int) + cy ∧
              ((py : Int) = (y : Int) + cx ∨ (py : Int) = (y : Int) - cx))) →
          ((px : Int) - x) ^ 2 + ((py : Int) - y) ^ 2 ≤ (radius : Int) ^ 2 + 2 * radius - 2 := by
        rintro px py (⟨h1, h2, h3⟩ | ⟨h1, h2, h3⟩)
        · have ha : ((px : Int) - x) ^ 2 ≤ cx ^ 2 := sq_le_sq' (by linarith) (by linarith)
          have hb2 : ((py : Int) - y) ^ 2 = cy ^ 2 := by
            rcases h3 with h3 | h3 <;> rw [h3] <;> ring
          linarith
        · have ha : ((px : Int) - x) ^ 2 ≤ cy ^ 2 := sq_le_sq' (by linarith) (by linarith)
          have hb2 : ((py : Int) - y) ^ 2 = cx ^ 2 := by
            rcases h3 with h3 | h3 <;> rw [h3] <;> ring
          linarith
      have hspan : ∀ k2 : Nat,
          (circleSpan w h x y cy cx c (circleSpan w h x y cx cy c rgb))[k2]? = rgb[k2]? ∨
            ((circleSpan w h x y cy cx c (circleSpan w h x y cx cy c rgb))[k2]? = some c ∧
              ∃ px py : Nat, k2 = py * w + px ∧ px < w ∧ py < h ∧
                ((px : Int) - x) ^ 2 + ((py : Int) - y) ^ 2 ≤
                  (radius : Int) ^ 2 + 2 * radius - 2) := by
        intro k2
        rcases circleSpan_changes w h x y cy cx c (circleSpan w h x y cx cy c rgb) k2 with
          h2 | ⟨h2, px, py, hk, hpx, hpy, hb1, hb2, hby⟩
        · rw [h2]
          rcases circleSpan_changes w h x y cx cy c rgb k2 with
            h3 | ⟨h3, px, py, hk, hpx, hpy, hb1, hb2, hby⟩
          · exact Or.inl h3
          · exact Or.inr ⟨h3, px, py, hk, hpx, hpy, hfinal px py (Or.inl ⟨hb1, hb2, hby⟩)⟩
        · exact Or.inr ⟨h2, px, py, hk, hpx, hpy, hfinal px py (Or.inr ⟨hb1, hb2, hby⟩)⟩
      rw [circleLoop_succ, if_pos hg]
      by_cases h1 : err ≤ 0
      · rw [if_pos h1]
        by_cases h2 : 0 < err + dy
        · rw [if_pos h2]
          rcases ih (cx - 1) (cy + 1) (dx + 2) (dy + 2) (err + dy + (dx + 2) - 2 * radius)
              (circleSpan w h x y cy cx c (circleSpan w h x y cx cy c rgb)) k
              (by rw [herr, hdx, hdy]; ring) (by rw [hdx]; ring) (by rw [hdy]; ring)
              (by omega) (by omega) (by rw [hdx, hdy]; omega) with
            hu | ⟨hc, px, py, rest⟩
          · rcases hspan k with hs | ⟨hs, px, py, rest⟩
            · exact Or.inl (hu.trans hs)
            · exact Or.inr ⟨hu.trans hs, px, py, rest⟩
          · exact Or.inr ⟨hc, px, py, rest⟩
        · rw [if_neg h2]
          rcases ih cx (cy + 1) dx (dy + 2) (err + dy)
              (circleSpan w h x y cy cx c (circleSpan w h x y cx cy c rgb)) k
              (by rw [herr, hdy]; ring) hdx (by rw [hdy]; ring)
              (by omega) hcx (by omega) with
            hu | ⟨hc, px, py, rest⟩
          · rcases hspan k with hs | ⟨hs, px, py, rest⟩
            · exact Or.inl (hu.trans hs)
            · exact Or.inr ⟨hu.trans hs, px, py, rest⟩
          · exact Or.inr ⟨hc, px, py, rest⟩
      · rw [if_neg h1]
        rcases ih (cx - 1) cy (dx + 2) dy (err + (dx + 2) - 2 * radius)
            (circleSpan w h x y cy cx c (circleSpan w h x y cx cy c rgb)) k
            (by rw [herr, hdx]; ring) (by rw [hdx]; ring) hdy
            hcy (by omega) (by rw [hdx]; omega) with
          hu | ⟨hc, px, py, rest⟩
        · rcases hspan k with hs | ⟨hs, px, py, rest⟩
          · exact Or.inl (hu.trans hs)
          · exact Or.inr ⟨hu.trans hs, px, py, rest⟩
        · exact Or.inr ⟨hc, px, py, rest⟩

/-- C5: every pixel `_circle` changes lies inside the buffer bounds
(no write outside `[0,width) × [0,height)`, whatever the logical extent
of the circle), is set to the fill color, and its Euclidean distance
from the center is below `radius + 1` — i.e. within radius `r` up to the
midpoint-algorithm tolerance.  The `< 2^30` hypotheses keep all the C
`int`/`unsigned` arithmetic inside the exact range of the embedding. -/
theorem circle_pixels_in_bounds_within_radius (tex : texture_t) (x y radius : Nat)
    (c : color_t) (hx : x < 1073741824) (hy : y < 1073741824) (hr : radius < 1073741824) :
    ∀ k : Nat, (_circle tex x y radius c).rgb[k]? ≠ tex.rgb[k]? →
      (_circle tex x y radius c).rgb[k]? = some c ∧
        ∃ px py : Nat, k = py * tex.width + px ∧ px < tex.width ∧ py < tex.height ∧
          ((px : Int) - x) ^ 2 + ((py : Int) - y) ^ 2 < ((radius : Int) + 1) ^ 2 := by
  intro k hne
  have hbody : (_circle tex x y radius c).rgb =
      circleLoop tex.width tex.height x y radius c (radius + 1)
        ((radius : Int) - 1) 0 1 1 (1 - 2 * (radius : Int)) tex.rgb := rfl
  rw [hbody] at hne ⊢
  rcases Nat.eq_zero_or_pos radius with h0 | h0
  · exfalso
    apply hne
    subst h0
    rw [show (((0 : Nat) : Int) - 1) = -1 by decide, circleLoop_succ,
      if_neg (by decide : ¬(0 : Int) ≤ -1)]
  · rcases circleLoop_changes tex.width tex.height x y radius c (radius + 1)
        ((radius : Int) - 1) 0 1 1 (1 - 2 * (radius : Int)) tex.rgb k
        (by push_cast; ring) (by ring) (by ring) le_rfl le_rfl (by omega) with
      hu | ⟨hc, px, py, hk, hpx, hpy, hdist⟩
    · exact absurd hu hne
    · refine ⟨hc, px, py, hk, hpx, hpy, ?_⟩
      have hx2 : ((radius : Int) + 1) ^ 2 = (radius : Int) ^ 2 + 2 * radius + 1 := by ring
      linarith

/-- Witness for C5: radius-1 circle at the center of a 3×3 black buffer
turns exactly the center pixel white. -/
theorem circle_pixels_in_bounds_within_radius_applied :
    (_circle (texture 3 3 cBlack) 1 1 1 cWhite).rgb[4]? = some cWhite :=
  (circle_pixels_in_bounds_within_radius (texture 3 3 cBlack) 1 1 1 cWhite (by decide)
    (by decide) (by decide) 4 (by decide)).1

/-! ### C6: the left-edge span skip (signed/unsigned comparison) -/

/-- C6 demonstration: on a 1×5 black buffer, `_circle` at center (0,2)
with radius 2 leaves the center pixel (0,2) black.  (0,2) is a candidate
pixel of the filled disk (distance 0) and lies inside the bounds, yet it
is never written: the span `for (int i = x - cx; i <= x + cx; i++)`
starts at the negative column `x - cx = -1`, the signed `i` is converted
to unsigned by the comparison with `x + cx`, and the whole span —
including its in-bounds pixels — is skipped.  The per-pixel `i >= 0 &&
i < width` clipping the spec describes never gets to run for such spans,
so clipping is not per-pixel at the left edge. -/
theorem circle_left_edge_span_skipped :
    (_circle (texture 1 5 cBlack) 0 2 2 cWhite).rgb[2 * 1 + 0]? = some cBlack ∧
      cBlack ≠ cWhite := by
  constructor
  · decide
  · decide
